import Mathlib

/-!
Shallow embedding of the SafeZonePeru feedback-driven retraining controller
(`src/ratings.py`, `src/train.py`) and proofs about it.

Timestamps are modelled as integers (the source stores ISO-8601 strings in a
fixed timezone, whose lexicographic order coincides with chronological order);
`window_days` is measured in the same unit, so the SQL cutoff
`now - timedelta(days=w)` becomes `now - w`.  SQLite rows become Lean
structures; the `success` column, which is `NULL` until finalization, becomes
`Option Bool`.  The auto-increment row id of `retrain_logs` is modelled by a
`nextLogId` counter carried in the database state.
-/

/-- A row of the `ratings` table. -/
structure Rating where
  created_at : ℤ
  stars : ℤ
  comment : Option String
deriving DecidableEq

/-- The hyperparameter dictionary produced by `_decide_hyperparams`. -/
structure HyperParams where
  k_min : ℕ
  k_max : ℕ
  covariance_type : String
  max_iter : ℕ
  n_init : ℕ
  random_state : ℕ
deriving DecidableEq

/-- A row of the `retrain_logs` table.  `finished_at` and `success` are `NULL`
(`none`) until the entry is finalized. -/
structure RetrainLog where
  id : ℕ
  started_at : ℤ
  finished_at : Option ℤ
  avg_rating : ℚ
  low_count : ℕ
  params : HyperParams
  success : Option Bool
deriving DecidableEq

/-- The SQLite database state. -/
structure DB where
  ratings : List Rating
  logs : List RetrainLog
  nextLogId : ℕ
deriving DecidableEq

/-- `add_rating` (src/ratings.py): inserts a row with the current timestamp.
The source performs no range check on `stars`. -/
def add_rating (stars : ℤ) (comment : Option String) (now : ℤ) (db : DB) : DB :=
  { db with ratings := db.ratings ++ [⟨now, stars, comment⟩] }

/-- `count_low_ratings` (src/ratings.py): rows with `stars <= threshold`
and `created_at >= now - window_days`. -/
def count_low_ratings (low_star_threshold : ℤ) (window_days : ℤ) (now : ℤ)
    (db : DB) : ℕ :=
  (db.ratings.filter (fun r =>
    decide (r.stars ≤ low_star_threshold ∧ now - window_days ≤ r.created_at))).length

/-- The success count queried inside `should_trigger_retrain`
(src/ratings.py): `retrain_logs` rows with `started_at >= cutoff` and
`success = 1`. -/
def count_recent_successes (window_days : ℤ) (now : ℤ) (db : DB) : ℕ :=
  (db.logs.filter (fun e =>
    decide (now - window_days ≤ e.started_at ∧ e.success = some true))).length

/-- `should_trigger_retrain` (src/ratings.py). -/
def should_trigger_retrain (low_star_threshold : ℤ) (trigger_count : ℕ)
    (window_days : ℤ) (now : ℤ) (db : DB) : Bool :=
  if count_low_ratings low_star_threshold window_days now db < trigger_count then
    false
  else
    decide (count_recent_successes window_days now db = 0)

/-- `_get_rating_stats` (src/ratings.py): `(AVG(stars), COUNT(*))` over the
window; SQL `AVG` is `NULL` on an empty window and the source coalesces that
to `0.0`. -/
def _get_rating_stats (window_days : ℤ) (now : ℤ) (db : DB) : ℚ × ℕ :=
  let rs := db.ratings.filter (fun r => decide (now - window_days ≤ r.created_at))
  if rs.length = 0 then (0, 0)
  else ((rs.map (fun r => (r.stars : ℚ))).sum / (rs.length : ℚ), rs.length)

/-- `_decide_hyperparams` (src/ratings.py). -/
def _decide_hyperparams (avg_rating : ℚ) (low_count : ℕ) : HyperParams :=
  let p0 : HyperParams :=
    { k_min := 2, k_max := 11, covariance_type := "diag",
      max_iter := 500, n_init := 10, random_state := 42 }
  let p1 :=
    if avg_rating ≤ 2 then
      { p0 with k_max := p0.k_max + 2, n_init := p0.n_init + 10,
                max_iter := p0.max_iter + 300 }
    else if avg_rating ≤ 3 then
      { p0 with k_max := p0.k_max + 1, n_init := p0.n_init + 5,
                max_iter := p0.max_iter + 100 }
    else p0
  if 20 ≤ low_count then
    { p1 with k_max := p1.k_max + 2, n_init := p1.n_init + 10 }
  else p1

/-- `_create_retrain_entry` (src/ratings.py): inserts a row with
`finished_at = NULL` and `success = NULL`, returning the fresh row id. -/
def _create_retrain_entry (started_at : ℤ) (avg_rating : ℚ) (low_count : ℕ)
    (params : HyperParams) (db : DB) : ℕ × DB :=
  (db.nextLogId,
   { db with
      logs := db.logs ++
        [⟨db.nextLogId, started_at, none, avg_rating, low_count, params, none⟩],
      nextLogId := db.nextLogId + 1 })

/-- `_finalize_retrain_entry` (src/ratings.py): an unconditional SQL `UPDATE`
of `finished_at` and `success` on the row with the given id.  The source has
no guard against an already-finalized row. -/
def _finalize_retrain_entry (rid : ℕ) (finished_at : ℤ) (success : Bool)
    (db : DB) : DB :=
  { db with
      logs := db.logs.map (fun e =>
        if e.id = rid then
          { e with finished_at := some finished_at,
                   success := some success }
        else e) }

/-- `trigger_retrain` (src/ratings.py).  The training pipeline
(`train.run_training(**params)`) is passed as a function returning
`Except String Unit`: `.error msg` models a raised exception with message
`msg`.  `now` is the decision/start timestamp, `fin` the finish timestamp. -/
def trigger_retrain (pipeline : HyperParams → Except String Unit)
    (now fin : ℤ) (db : DB) : Bool × DB :=
  if should_trigger_retrain 2 5 7 now db then
    let stats := _get_rating_stats 7 now db
    let low := count_low_ratings 2 7 now db
    let params := _decide_hyperparams stats.1 low
    let created := _create_retrain_entry now stats.1 low params db
    match pipeline params with
    | .ok _ => (true, _finalize_retrain_entry created.1 fin true created.2)
    | .error _ => (false, _finalize_retrain_entry created.1 fin false created.2)
  else
    (false, db)

/-- A concrete database: five low (1-star) ratings at time 0, no retrain
logs; the trigger condition holds at `now = 0`. -/
def dbFive : DB :=
  ⟨[⟨0, 1, none⟩, ⟨0, 1, none⟩, ⟨0, 1, none⟩, ⟨0, 1, none⟩, ⟨0, 1, none⟩], [], 1⟩

/-- A concrete database holding one pre-existing Pending retrain-log entry
(id 7) and no ratings, so the trigger condition fails. -/
def dbPend : DB :=
  ⟨[], [⟨7, -3, none, 0, 0, ⟨2, 11, "diag", 500, 10, 42⟩, none⟩], 9⟩

/-- Claim C1: `should_trigger_retrain` returns true iff the number of ratings
with `stars ≤ threshold` inside the trailing window `[now - w, now]` is at
least `trigger_count` and no Success log entry has `started_at` inside that
window; it is false whenever the low count is below `trigger_count`
(the average rating is not consulted at all), and false whenever an in-window
Success entry exists even with the low count at or above `trigger_count`.
The hypotheses state that no stored timestamp lies in the future, which holds
for every reachable database state (rows are stamped with the current time at
insertion). -/
theorem should_trigger_retrain_iff (th : ℤ) (tc : ℕ) (w now : ℤ) (db : DB)
    (hr : ∀ r ∈ db.ratings, r.created_at ≤ now)
    (hl : ∀ e ∈ db.logs, e.started_at ≤ now) :
    (should_trigger_retrain th tc w now db = true ↔
      tc ≤ (db.ratings.filter (fun r =>
              decide (r.stars ≤ th ∧ now - w ≤ r.created_at ∧
                      r.created_at ≤ now))).length ∧
      (db.logs.filter (fun e =>
        decide (now - w ≤ e.started_at ∧ e.started_at ≤ now ∧
                e.success = some true))).length = 0)
    ∧ (count_low_ratings th w now db < tc →
        should_trigger_retrain th tc w now db = false)
    ∧ ((∃ e ∈ db.logs, now - w ≤ e.started_at ∧ e.started_at ≤ now ∧
          e.success = some true) →
        should_trigger_retrain th tc w now db = false) := by
  have hR : db.ratings.filter (fun r =>
        decide (r.stars ≤ th ∧ now - w ≤ r.created_at ∧ r.created_at ≤ now))
      = db.ratings.filter (fun r =>
        decide (r.stars ≤ th ∧ now - w ≤ r.created_at)) := by
    apply List.filter_congr
    intro r hrm
    have hrn := hr r hrm
    simp only [decide_eq_decide]
    constructor
    · rintro ⟨h1, h2, -⟩; exact ⟨h1, h2⟩
    · rintro ⟨h1, h2⟩; exact ⟨h1, h2, hrn⟩
  have hL : db.logs.filter (fun e =>
        decide (now - w ≤ e.started_at ∧ e.started_at ≤ now ∧
                e.success = some true))
      = db.logs.filter (fun e =>
        decide (now - w ≤ e.started_at ∧ e.success = some true)) := by
    apply List.filter_congr
    intro e hem
    have hen := hl e hem
    simp only [decide_eq_decide]
    constructor
    · rintro ⟨h1, -, h3⟩; exact ⟨h1, h3⟩
    · rintro ⟨h1, h3⟩; exact ⟨h1, hen, h3⟩
  refine ⟨?_, ?_, ?_⟩
  · rw [hR, hL]
    unfold should_trigger_retrain count_low_ratings count_recent_successes
    split_ifs with h
    · simp only [Bool.false_eq_true, false_iff, not_and]
      intro hle
      omega
    · simp only [decide_eq_true_eq]
      constructor
      · intro h0; exact ⟨by omega, h0⟩
      · intro h0; exact h0.2
  · intro h
    unfold should_trigger_retrain
    rw [if_pos h]
  · rintro ⟨e, hem, h1, h2, h3⟩
    unfold should_trigger_retrain
    split_ifs with h
    · rfl
    · simp only [decide_eq_false_iff_not]
      intro h0
      have hmem : e ∈ db.logs.filter (fun e =>
          decide (now - w ≤ e.started_at ∧ e.success = some true)) := by
        apply List.mem_filter.2
        exact ⟨hem, by simp [h1, h3]⟩
      have : 0 < count_recent_successes w now db := by
        unfold count_recent_successes
        exact List.length_pos.2 (List.ne_nil_of_mem hmem)
      omega

/-- Witness for C1 at a concrete database: with five in-window low ratings
and no Success entries the trigger fires. -/
theorem should_trigger_retrain_iff_witness :
    should_trigger_retrain 2 5 7 0 dbFive = true :=
  ((should_trigger_retrain_iff 2 5 7 0 dbFive (by decide) (by decide)).1).mpr
    ⟨by decide, by decide⟩

/-- Claim C2 counterexample: the entry with id 1 has already been finalized
once (Success at time 10).  A second `_finalize_retrain_entry` call on the
same id is not rejected — there is no FinalizeError path in the source — and
it overwrites the first recorded `finished_at`/`success` values. -/
theorem finalize_second_call_overwrites_cex :
    (_finalize_retrain_entry 1 20 false
        ⟨[], [⟨1, 0, some 10, 3, 5, ⟨2, 11, "diag", 500, 10, 42⟩, some true⟩],
         2⟩).logs
      = [⟨1, 0, some 20, 3, 5, ⟨2, 11, "diag", 500, 10, 42⟩, some false⟩]
    ∧ (_finalize_retrain_entry 1 20 false
        ⟨[], [⟨1, 0, some 10, 3, 5, ⟨2, 11, "diag", 500, 10, 42⟩, some true⟩],
         2⟩).logs
      ≠ [⟨1, 0, some 10, 3, 5, ⟨2, 11, "diag", 500, 10, 42⟩, some true⟩] := by
  constructor
  · rfl
  · decide

/-- Claim C2 (amended): `_finalize_retrain_entry` is an unconditional update:
a second finalize of the same id is accepted (no FinalizeError exists in the
source) and overwrites `finished_at` and `success` with the new values; the
set of rows (and in particular the row count) is otherwise preserved. -/
theorem finalize_retrain_entry_overwrites (rid : ℕ) (t : ℤ) (s : Bool)
    (db : DB) :
    (∀ e ∈ (_finalize_retrain_entry rid t s db).logs,
       e.id = rid → e.finished_at = some t ∧ e.success = some s)
    ∧ (_finalize_retrain_entry rid t s db).logs.length = db.logs.length := by
  constructor
  · intro e he hid
    unfold _finalize_retrain_entry at he
    simp only [List.mem_map] at he
    obtain ⟨e0, -, rfl⟩ := he
    by_cases h : e0.id = rid
    · simp [h]
    · simp only [if_neg h] at hid ⊢
      exact absurd hid h
  · simp [_finalize_retrain_entry]

/-- Witness for the amended C2 at a concrete database: after re-finalizing
id 1, the stored entry carries the second call's values. -/
theorem finalize_retrain_entry_overwrites_witness :
    ((⟨1, 0, some 20, 3, 5, ⟨2, 11, "diag", 500, 10, 42⟩, some false⟩ :
        RetrainLog).finished_at = some 20
     ∧ (⟨1, 0, some 20, 3, 5, ⟨2, 11, "diag", 500, 10, 42⟩, some false⟩ :
        RetrainLog).success = some false) :=
  (finalize_retrain_entry_overwrites 1 20 false
      ⟨[], [⟨1, 0, some 10, 3, 5, ⟨2, 11, "diag", 500, 10, 42⟩, some true⟩],
       2⟩).1
    ⟨1, 0, some 20, 3, 5, ⟨2, 11, "diag", 500, 10, 42⟩, some false⟩
    (by decide) (by decide)

/-- Claim C3: `_decide_hyperparams` applies additive, stacking escalation to
the fixed base configuration; in particular `(1.5, 25)` yields
`k_max = 15, n_init = 30, max_iter = 800` with `k_min` and `covariance_type`
unchanged, and `(4.5, 0)` yields the base set unchanged. -/
theorem decide_hyperparams_policy :
    (∀ (avg : ℚ) (low : ℕ), _decide_hyperparams avg low =
      { k_min := 2
        k_max := 11 + (if avg ≤ 2 then 2 else if avg ≤ 3 then 1 else 0)
                  + (if 20 ≤ low then 2 else 0)
        covariance_type := "diag"
        max_iter := 500 + (if avg ≤ 2 then 300 else if avg ≤ 3 then 100 else 0)
        n_init := 10 + (if avg ≤ 2 then 10 else if avg ≤ 3 then 5 else 0)
                  + (if 20 ≤ low then 10 else 0)
        random_state := 42 })
    ∧ _decide_hyperparams (1.5 : ℚ) 25 = ⟨2, 15, "diag", 800, 30, 42⟩
    ∧ _decide_hyperparams (4.5 : ℚ) 0 = ⟨2, 11, "diag", 500, 10, 42⟩ := by
  refine ⟨?_, ?_, ?_⟩
  · intro avg low
    unfold _decide_hyperparams
    split_ifs <;> rfl
  · norm_num [_decide_hyperparams]
  · norm_num [_decide_hyperparams]

/-- Claim C4 counterexample: `add_rating` performs no range validation.
At the out-of-range input `stars = 6`, the call does not fail and a rating
row with `stars = 6` is added to the store, refuting the claim that it fails
with a ValidationError and adds no row. -/
theorem add_rating_no_validation_cex :
    ((6 : ℤ) < 0 ∨ 5 < (6 : ℤ))
    ∧ (add_rating 6 none 0 ⟨[], [], 1⟩).ratings = [⟨0, 6, none⟩] := by
  exact ⟨by decide, rfl⟩

/-- Claim C4 (amended): `add_rating` validates nothing: for every integer
`stars` — in range or not — it succeeds, appending exactly one row holding
the given `stars`, and leaves the retrain logs untouched.  (In particular it
succeeds for every `stars ∈ [0, 5]`, the half of the claim that holds; range
enforcement exists only in the UI form, not in the store operation.) -/
theorem add_rating_always_inserts (stars : ℤ) (comment : Option String)
    (now : ℤ) (db : DB) :
    (add_rating stars comment now db).ratings.length = db.ratings.length + 1
    ∧ (add_rating stars comment now db).ratings.getLast?
        = some ⟨now, stars, comment⟩
    ∧ (add_rating stars comment now db).logs = db.logs := by
  refine ⟨?_, ?_, rfl⟩
  · simp [add_rating]
  · simp [add_rating]

/-- Claim C5 counterexample: the error text of a pipeline exception is not
recorded anywhere: running `trigger_retrain` with a pipeline failing with
message "boom" produces exactly the same final state as with message "bang"
(the `retrain_logs` schema has no error column), although the call does
return false and finalizes the entry as Failure. -/
theorem trigger_retrain_error_text_ignored_cex :
    trigger_retrain (fun _ => Except.error "boom") 0 1 dbFive
      = trigger_retrain (fun _ => Except.error "bang") 0 1 dbFive
    ∧ (trigger_retrain (fun _ => Except.error "boom") 0 1 dbFive).1 = false
    ∧ ((trigger_retrain (fun _ => Except.error "boom") 0 1 dbFive).2.logs.map
        RetrainLog.success) = [some false] := by
  refine ⟨rfl, rfl, ?_⟩
  decide

/-- Claim C5 (amended): any pipeline exception during an inline retrain is
caught at the coordinator boundary — `trigger_retrain` is total, returns
false, and finalizes the entry it created (id `db.nextLogId`) as a Failure
with `finished_at` set; the exception's message is not recorded (see the
counterexample). -/
theorem trigger_retrain_failure_contained (msg : String) (now fin : ℤ)
    (db : DB) (htrig : should_trigger_retrain 2 5 7 now db = true) :
    (trigger_retrain (fun _ => Except.error msg) now fin db).1 = false
    ∧ (trigger_retrain (fun _ => Except.error msg) now fin db).2.logs.length
        = db.logs.length + 1
    ∧ (∀ e ∈ (trigger_retrain (fun _ => Except.error msg) now fin db).2.logs,
        e.id = db.nextLogId →
          e.success = some false ∧ e.finished_at = some fin) := by
  unfold trigger_retrain
  rw [if_pos htrig]
  refine ⟨rfl, ?_, ?_⟩
  · simp [_finalize_retrain_entry, _create_retrain_entry]
  · intro e he hid
    simp only [_finalize_retrain_entry, _create_retrain_entry,
      List.mem_map] at he
    obtain ⟨e0, -, rfl⟩ := he
    by_cases h : e0.id = db.nextLogId
    · simp [h]
    · simp only [if_neg h] at hid ⊢
      exact absurd hid h

/-- Witness for the amended C5 at a concrete database where the trigger
fires and the pipeline raises. -/
theorem trigger_retrain_failure_contained_witness :
    (trigger_retrain (fun _ => Except.error "boom") 0 1 dbFive).1 = false :=
  (trigger_retrain_failure_contained "boom" 0 1 dbFive (by decide)).1

/-- Claim C10: `trigger_retrain` never leaves behind a Pending entry of its
own creation: every entry whose `success` is still NULL after the call was
already present before it, for every database state and pipeline outcome
(the entry it creates is finalized in both the success and the failure
branch before the call returns). -/
theorem trigger_retrain_no_new_pending
    (pipeline : HyperParams → Except String Unit) (now fin : ℤ) (db : DB) :
    ∀ e ∈ (trigger_retrain pipeline now fin db).2.logs,
      e.success = none → e ∈ db.logs := by
  intro e he hpend
  unfold trigger_retrain at he
  split_ifs at he with htr
  · rcases hpl : pipeline (_decide_hyperparams (_get_rating_stats 7 now db).1
        (count_low_ratings 2 7 now db)) with v | v <;>
      simp only [hpl] at he <;>
      [skip; skip] <;>
      · simp only [_finalize_retrain_entry, _create_retrain_entry,
          List.mem_map, List.mem_append, List.mem_singleton] at he
        obtain ⟨e0, he0, rfl⟩ := he
        by_cases h : e0.id = db.nextLogId
        · simp [h] at hpend
        · simp only [if_neg h] at hpend ⊢
          rcases he0 with he0 | rfl
          · exact he0
          · exact absurd rfl h
  · exact he

/-- Witness for C10 at a concrete database: the one Pending entry found
after the call was already present before it. -/
theorem trigger_retrain_no_new_pending_witness :
    (⟨7, -3, none, 0, 0, ⟨2, 11, "diag", 500, 10, 42⟩, none⟩ : RetrainLog)
      ∈ dbPend.logs :=
  trigger_retrain_no_new_pending (fun _ => Except.ok ()) 0 1 dbPend
    ⟨7, -3, none, 0, 0, ⟨2, 11, "diag", 500, 10, 42⟩, none⟩
    (by decide) (by decide)

/-- `np.argmin` over a list: index of the first occurrence of the minimum
(`best_idx = np.argmin(bics)` in `find_best_k_gmm`, src/train.py). -/
def argmin_list : List ℚ → ℕ
  | [] => 0
  | [_] => 0
  | x :: y :: ys =>
    let r := argmin_list (y :: ys)
    if (y :: ys).getD r 0 < x then r + 1 else 0

/-- `argmin_list` returns an in-range index whose value is minimal and which
strictly precedes every other position holding the minimum. -/
theorem argmin_list_spec : ∀ (l : List ℚ), l ≠ [] →
    argmin_list l < l.length
    ∧ (∀ j, j < l.length → l.getD (argmin_list l) 0 ≤ l.getD j 0)
    ∧ (∀ j, j < argmin_list l → l.getD (argmin_list l) 0 < l.getD j 0)
  | [], h => absurd rfl h
  | [x], _ => by
      refine ⟨by simp [argmin_list], ?_, ?_⟩
      · intro j hj
        cases j with
        | zero => simp [argmin_list]
        | succ j' => simp at hj
      · intro j hj
        simp [argmin_list] at hj
  | x :: y :: ys, _ => by
      obtain ⟨ih1, ih2, ih3⟩ := argmin_list_spec (y :: ys) (by simp)
      have heq : argmin_list (x :: y :: ys)
          = if (y :: ys).getD (argmin_list (y :: ys)) 0 < x then
              argmin_list (y :: ys) + 1 else 0 := rfl
      rw [heq]
      split_ifs with h
      · refine ⟨by simpa using ih1, ?_, ?_⟩
        · intro j hj
          cases j with
          | zero => simpa using le_of_lt h
          | succ j' =>
            simp only [List.getD_cons_succ]
            exact ih2 j' (by simpa using hj)
        · intro j hj
          cases j with
          | zero => simpa using h
          | succ j' =>
            simp only [List.getD_cons_succ]
            exact ih3 j' (by omega)
      · refine ⟨by simp, ?_, ?_⟩
        · intro j hj
          cases j with
          | zero => simp
          | succ j' =>
            simp only [List.getD_cons_zero, List.getD_cons_succ]
            exact le_trans (not_lt.1 h) (ih2 j' (by simpa using hj))
        · intro j hj
          omega

/-- `find_best_k_gmm` (src/train.py): one BIC score per k in `k_range`
(`bics = [gmm.bic(X) for k in k_range]`, modelled by the score function
`bic`), then `k_range[np.argmin(bics)]`. -/
def find_best_k_gmm (bic : ℕ → ℚ) (krange : List ℕ) : ℕ :=
  krange.getD (argmin_list (krange.map bic)) 0

/-- Claim C7: over `k_range = range(k_min, k_max + 1)` (which contains
exactly the k with `k_min ≤ k ≤ k_max`, each of which is scored),
`find_best_k_gmm` returns a k from the range whose BIC is minimal, and among
k values tied at the minimal BIC it returns the smallest. -/
theorem find_best_k_gmm_min_bic (bic : ℕ → ℚ) (k_min k_max : ℕ)
    (h : k_min ≤ k_max) :
    (∀ k, k ∈ List.range' k_min (k_max + 1 - k_min) ↔ k_min ≤ k ∧ k ≤ k_max)
    ∧ find_best_k_gmm bic (List.range' k_min (k_max + 1 - k_min))
        ∈ List.range' k_min (k_max + 1 - k_min)
    ∧ (∀ k ∈ List.range' k_min (k_max + 1 - k_min),
        bic (find_best_k_gmm bic (List.range' k_min (k_max + 1 - k_min)))
          ≤ bic k)
    ∧ (∀ k ∈ List.range' k_min (k_max + 1 - k_min),
        bic k
          = bic (find_best_k_gmm bic (List.range' k_min (k_max + 1 - k_min))) →
        find_best_k_gmm bic (List.range' k_min (k_max + 1 - k_min)) ≤ k) := by
  set n := k_max + 1 - k_min with hn
  set l := List.range' k_min n with hldef
  have hlen : l.length = n := List.length_range' ..
  have hnpos : 0 < n := by omega
  set bics := l.map bic with hbdef
  have hblen : bics.length = n := by rw [hbdef, List.length_map, hlen]
  have hbne : bics ≠ [] := List.ne_nil_of_length_pos (by omega)
  obtain ⟨hi, hmin, hfirst⟩ := argmin_list_spec bics hbne
  set i := argmin_list bics with hidef
  have hin : i < n := by omega
  have hil : i < l.length := by omega
  have hbest : find_best_k_gmm bic l = k_min + i := by
    unfold find_best_k_gmm
    rw [← hbdef, ← hidef, List.getD_eq_getElem l 0 hil, List.getElem_range']
    omega
  have hbic : ∀ j, j < n → bics.getD j 0 = bic (k_min + j) := by
    intro j hj
    have hjl : j < l.length := by omega
    rw [hbdef, List.getD_eq_getElem _ 0 (by rw [List.length_map]; omega),
      List.getElem_map, List.getElem_range']
    norm_num
  refine ⟨?_, ?_, ?_, ?_⟩
  · intro k
    rw [List.mem_range'_1]
    omega
  · rw [hbest, List.mem_range'_1]
    omega
  · intro k hk
    rw [List.mem_range'_1] at hk
    have hk2 : k = k_min + (k - k_min) := by omega
    rw [hbest, hk2, ← hbic i hin, ← hbic (k - k_min) (by omega)]
    exact hmin (k - k_min) (by omega)
  · intro k hk heq
    rw [List.mem_range'_1] at hk
    by_contra hcon
    push_neg at hcon
    rw [hbest] at hcon
    have hj : k - k_min < i := by omega
    have hlt := hfirst (k - k_min) hj
    rw [hbic i hin, hbic (k - k_min) (by omega)] at hlt
    have hk2 : k_min + (k - k_min) = k := by omega
    rw [hk2] at hlt
    rw [hbest] at heq
    exact absurd (heq ▸ hlt) (lt_irrefl _)

/-- An example BIC score function with a tie: minimal value 7 first attained
at k = 3. -/
def bicEx : ℕ → ℚ := fun k => if 3 ≤ k then 7 else 9

/-- Witness for C7 at `k_min = 2`, `k_max = 4` with the tied score `bicEx`:
the returned k is in range and BIC-minimal. -/
theorem find_best_k_gmm_min_bic_witness :
    (2 : ℕ) ≤ 4
    ∧ bicEx (find_best_k_gmm bicEx (List.range' 2 (4 + 1 - 2))) ≤ bicEx 4 :=
  ⟨by decide, (find_best_k_gmm_min_bic bicEx 2 4 (by decide)).2.2.1 4 (by decide)⟩

/-- The file-system state relevant to one artifact name in
`save_with_backup` (src/train.py): the artifact file currently in `models/`
and the backups of that name in `model_backup/`.  Each file is identified by
its modification time, an integer timestamp; `shutil.move` preserves the
mtime, so a backup's mtime is the time the artifact version was written. -/
structure ModelDir where
  current : Option ℤ
  backups : List ℤ
deriving DecidableEq

/-- `save_with_backup` (src/train.py) for one artifact name, called at time
`t`: if the artifact file exists, move it into the backup directory, sort
this name's backups by mtime newest-first (`glob` restricts to this name's
stem, `sorted(..., key=st_mtime, reverse=True)`), delete everything past the
first `max_backups` of them, then write the new artifact (mtime `t`). -/
def save_with_backup (t : ℤ) (max_backups : ℕ) (s : ModelDir) : ModelDir :=
  match s.current with
  | none => { current := some t, backups := s.backups }
  | some c =>
    { current := some t,
      backups :=
        (List.insertionSort (fun a b => b ≤ a) (c :: s.backups)).take
          max_backups }

/-- Successive persistences of one artifact name: fold `save_with_backup`
over the list of save times. -/
def save_many (N : ℕ) (ts : List ℤ) (s : ModelDir) : ModelDir :=
  ts.foldl (fun s t => save_with_backup t N s) s

/-- State after any strictly increasing sequence of saves starting from an
empty directory: the current artifact is the last version written, and the
backups are the `N` most recent previous versions, newest first. -/
theorem save_many_spec (N : ℕ) (ts : List ℤ) (hts : ts.Pairwise (· < ·)) :
    save_many N ts ⟨none, []⟩ = ⟨ts.getLast?, ts.dropLast.reverse.take N⟩ := by
  induction ts using List.reverseRecOn with
  | nil => simp [save_many]
  | append_singleton p t ih =>
    have hp : p.Pairwise (· < ·) :=
      hts.sublist (List.sublist_append_left p [t])
    have hpt : ∀ x ∈ p, x < t := by
      intro x hx
      exact (List.pairwise_append.1 hts).2.2 x hx t (List.mem_singleton_self t)
    have hstep : save_many N (p ++ [t]) ⟨none, []⟩
        = save_with_backup t N (save_many N p ⟨none, []⟩) := by
      simp [save_many, List.foldl_append]
    rw [hstep, ih hp]
    rcases hpe : p with _ | ⟨a, q⟩
    · rfl
    · rw [← hpe]
      have hpne : p ≠ [] := by rw [hpe]; exact List.cons_ne_nil a q
      set c := p.getLast hpne with hc
      have hlast : p.getLast? = some c := List.getLast?_eq_getLast p hpne
      have hsplit : p.dropLast ++ [c] = p := List.dropLast_append_getLast hpne
      have hrev : p.reverse = c :: p.dropLast.reverse := by
        conv_lhs => rw [← hsplit]
        simp
      have hcmax : ∀ x ∈ p.dropLast, x < c := by
        intro x hx
        have hpp : (p.dropLast ++ [c]).Pairwise (· < ·) := by rw [hsplit]; exact hp
        exact (List.pairwise_append.1 hpp).2.2 x hx c (List.mem_singleton_self c)
      have hsorted : List.Sorted (fun a b => b ≤ a)
          (c :: p.dropLast.reverse.take N) := by
        rw [List.sorted_cons]
        constructor
        · intro b hb
          exact le_of_lt (hcmax b (List.mem_reverse.1 (List.mem_of_mem_take hb)))
        · have h1 : p.dropLast.reverse.Pairwise (fun a b => b < a) :=
            List.pairwise_reverse.2 (hp.sublist (List.dropLast_sublist p))
          have h2 : p.dropLast.reverse.Pairwise (fun a b => b ≤ a) :=
            h1.imp (fun h => le_of_lt h)
          exact h2.sublist (List.take_sublist N _)
      rw [save_with_backup]
      simp only [hlast]
      have hins := List.Sorted.insertionSort_eq hsorted
      rw [hins]
      have hdrop : (p ++ [t]).dropLast = p := List.dropLast_concat ..
      have hlast2 : (p ++ [t]).getLast? = some t := List.getLast?_concat ..
      rw [hdrop, hlast2, hrev]
      cases N with
      | zero => rfl
      | succ m =>
        simp only [List.take_succ_cons, List.take_take]
        rw [min_eq_left (Nat.le_succ m)]

/-- Claim C8: starting from no artifact, any strictly increasing sequence of
persistences of one artifact name retains exactly the `N` most recent
previous versions as backups (newest first) — older backups are the ones
deleted — and after `N + 1` persistences exactly `N` backups remain, namely
all `N` previous versions.  Strictly increasing save times model successive
runs: the source names backups with a seconds-resolution timestamp and sorts
by mtime, so distinct save times are required for distinct backup files. -/
theorem save_with_backup_retention (N : ℕ) (ts : List ℤ)
    (hts : ts.Pairwise (· < ·)) :
    (save_many N ts ⟨none, []⟩).backups = ts.dropLast.reverse.take N
    ∧ (ts.length = N + 1 →
        (save_many N ts ⟨none, []⟩).backups.length = N
        ∧ (save_many N ts ⟨none, []⟩).backups = ts.dropLast.reverse) := by
  have hspec := save_many_spec N ts hts
  rw [hspec]
  refine ⟨rfl, ?_⟩
  intro hlen
  have hdl : ts.dropLast.reverse.length = N := by
    rw [List.length_reverse, List.length_dropLast, hlen]
    omega
  rw [List.take_of_length_le (le_of_eq hdl)]
  exact ⟨hdl, rfl⟩

/-- Witness for C8 with `N = 2` and three strictly increasing saves: both
previous versions remain as backups, newest first. -/
theorem save_with_backup_retention_witness :
    (save_many 2 [0, 1, 2] ⟨none, []⟩).backups.length = 2 :=
  ((save_with_backup_retention 2 [0, 1, 2] (by decide)).2 (by decide)).1

/-- `unificar_departamentos` (src/train.py, inside `run_training`): uppercase
the name; any name whose uppercased form contains "LIMA" becomes "LIMA", else
containing "CALLAO" becomes "CALLAO", else the uppercased name is returned.
Names are modelled as `List Char`; Python substring containment is list
infix. -/
def unificar_departamentos (nombre : List Char) : List Char :=
  let n := nombre.map Char.toUpper
  if "LIMA".toList <:+: n then "LIMA".toList
  else if "CALLAO".toList <:+: n then "CALLAO".toList
  else n

/-- Pointwise sum of two per-category count rows (`groupby(...).sum()` adds
column-wise); the raw incident counts are integers. -/
def addVec (a b : List ℤ) : List ℤ := List.zipWith (· + ·) a b

/-- Sum of a group of per-category count rows. -/
def sumVecs : List (List ℤ) → List ℤ
  | [] => []
  | v :: vs => vs.foldl addVec v

/-- The department-granularity aggregation of `run_training` (src/train.py):
each pivot row is keyed by `unificar_departamentos` of its department name
(`DPTO_UNIFICADO`), and rows are grouped by that key with per-category counts
summed (`groupby("DPTO_UNIFICADO").sum(numeric_only=True)`). -/
def aggregateDept (rows : List (List Char × List ℤ)) :
    List (List Char × List ℤ) :=
  ((rows.map (fun r => unificar_departamentos r.1)).dedup).map
    (fun k => (k, sumVecs
      ((rows.filter (fun r => decide (unificar_departamentos r.1 = k))).map
        Prod.snd)))

/-- Department rows with two LIMA sub-regions and one unrelated department. -/
def rowsLima : List (List Char × List ℤ) :=
  [("LIMA NORTE".toList, [1, 2]), ("LIMA SUR".toList, [3, 4]),
   ("CUSCO".toList, [5, 6])]

/-- Claim C9 counterexample: the name "Cusco" contains neither "LIMA" nor
"CALLAO", so per the claim it should pass through unchanged; the code
uppercases it to "CUSCO". -/
theorem unificar_changes_unrelated_name_cex :
    ¬ ("LIMA".toList <:+: "Cusco".toList)
    ∧ ¬ ("CALLAO".toList <:+: "Cusco".toList)
    ∧ unificar_departamentos "Cusco".toList ≠ "Cusco".toList
    ∧ unificar_departamentos "Cusco".toList = "CUSCO".toList := by decide

/-- Claim C9 (amended): department names are uppercased first; any name whose
uppercased form contains "LIMA" maps to "LIMA" (in particular every name
containing "LIMA" does), else one containing "CALLAO" maps to "CALLAO", and
all remaining names map to their uppercased form (so already-uppercase names
are unchanged).  Consequently the "LIMA NORTE" and "LIMA SUR" rows collapse
into a single "LIMA" row of the department-level output whose per-category
counts are the sums of the collapsed rows' counts. -/
theorem unificar_departamentos_spec :
    (∀ n : List Char, "LIMA".toList <:+: n.map Char.toUpper →
      unificar_departamentos n = "LIMA".toList)
    ∧ (∀ n : List Char, "LIMA".toList <:+: n →
        unificar_departamentos n = "LIMA".toList)
    ∧ (∀ n : List Char, ¬ ("LIMA".toList <:+: n.map Char.toUpper) →
        "CALLAO".toList <:+: n.map Char.toUpper →
        unificar_departamentos n = "CALLAO".toList)
    ∧ (∀ n : List Char, ¬ ("LIMA".toList <:+: n.map Char.toUpper) →
        ¬ ("CALLAO".toList <:+: n.map Char.toUpper) →
        unificar_departamentos n = n.map Char.toUpper)
    ∧ (aggregateDept rowsLima).length = 2
    ∧ (aggregateDept rowsLima).filter (fun r => decide (r.1 = "LIMA".toList))
        = [("LIMA".toList, [4, 6])] := by
  have h1 : ∀ n : List Char, "LIMA".toList <:+: n.map Char.toUpper →
      unificar_departamentos n = "LIMA".toList := by
    intro n h
    unfold unificar_departamentos
    rw [if_pos h]
  refine ⟨h1, ?_, ?_, ?_, ?_, ?_⟩
  · intro n h
    apply h1
    obtain ⟨s, t, heq⟩ := h
    refine ⟨s.map Char.toUpper, t.map Char.toUpper, ?_⟩
    rw [← heq, List.map_append, List.map_append]
    have hLu : ("LIMA".toList).map Char.toUpper = "LIMA".toList := by decide
    rw [hLu]
  · intro n h1n h2
    unfold unificar_departamentos
    rw [if_neg h1n, if_pos h2]
  · intro n h1n h2n
    unfold unificar_departamentos
    rw [if_neg h1n, if_neg h2n]
  · decide
  · decide

/-- Witness for the amended C9: a lowercase name containing "lima" maps to
"LIMA" once uppercased. -/
theorem unificar_departamentos_spec_witness :
    "LIMA".toList <:+: ("zona lima".toList.map Char.toUpper)
    ∧ unificar_departamentos "zona lima".toList = "LIMA".toList :=
  ⟨by decide, unificar_departamentos_spec.1 "zona lima".toList (by decide)⟩

/-- The rows of the standardized feature matrix `X_scaled` belonging to
cluster label `i` (`X_scaled[clusters == i]` in `sort_clusters`,
src/train.py).  A point is a row of rationals; `cl` lists the points'
cluster labels positionally. -/
def rowsOf (X : List (List ℚ)) (cl : List ℕ) (i : ℕ) : List (List ℚ) :=
  ((X.zip cl).filter (fun p => decide (p.2 = i))).map Prod.fst

/-- Sum of all standardized feature entries of cluster `i`. -/
def groupSum (X : List (List ℚ)) (cl : List ℕ) (i : ℕ) : ℚ :=
  ((rowsOf X cl i).map List.sum).sum

/-- Number of standardized feature entries of cluster `i`. -/
def groupCount (X : List (List ℚ)) (cl : List ℕ) (i : ℕ) : ℕ :=
  ((rowsOf X cl i).map List.length).sum

/-- `X_scaled[clusters == i].mean()`: numpy's mean of the submatrix, i.e.
the sum of all its entries divided by their number. -/
def groupMean (X : List (List ℚ)) (cl : List ℕ) (i : ℕ) : ℚ :=
  groupSum X cl i / (groupCount X cl i : ℚ)

/-- The `cluster_means` list of `sort_clusters` (src/train.py): one mean per
component `i in range(model.n_components)`. -/
def cluster_means (k : ℕ) (X : List (List ℚ)) (cl : List ℕ) : List ℚ :=
  (List.range k).map (groupMean X cl)

/-- `np.argsort` over a list of scores: the indices `0..n-1` reordered so
the scores are ascending. -/
def argsort (l : List ℚ) : List ℕ :=
  List.insertionSort (fun a b => l.getD a 0 ≤ l.getD b 0)
    (List.range l.length)

/-- `sort_clusters` (src/train.py): `new_map = {old: new for new, old in
enumerate(np.argsort(cluster_means))}` — i.e. old label `c` is sent to the
position of `c` in the argsort order — applied to every entry of
`clusters`. -/
def sort_clusters (k : ℕ) (X : List (List ℚ)) (cl : List ℕ) : List ℕ :=
  let idx := argsort (cluster_means k X cl)
  cl.map (fun c => idx.indexOf c)

/-- Relabeling a cluster assignment through `fun c => idx.indexOf c` maps
the group with new label `i` onto the group with old label `idx[i]`. -/
theorem rowsOf_relabel (X : List (List ℚ)) (cl : List ℕ) (idx : List ℕ)
    (hnd : idx.Nodup) (hclm : ∀ c ∈ cl, c ∈ idx) (i : ℕ)
    (hi : i < idx.length) :
    rowsOf X (cl.map (fun c => idx.indexOf c)) i
      = rowsOf X cl (idx.getD i 0) := by
  unfold rowsOf
  rw [List.zip_map_right, List.filter_map, List.map_map]
  have hfst : (Prod.fst ∘ Prod.map id (fun c => idx.indexOf c))
      = (Prod.fst : List ℚ × ℕ → List ℚ) := by
    funext p; cases p; rfl
  rw [hfst]
  congr 1
  apply List.filter_congr
  intro p hp
  have hp2 : p.2 ∈ cl := (List.of_mem_zip hp).2
  have hpin : p.2 ∈ idx := hclm _ hp2
  have hgd : idx.getD i 0 = idx[i] := List.getD_eq_getElem idx 0 hi
  simp only [Function.comp_apply, Prod.map_apply, Prod.map_snd, id_eq,
    decide_eq_decide]
  rw [hgd]
  constructor
  · intro h
    subst h
    exact (List.getElem_indexOf (List.indexOf_lt_length.2 hpin)).symm
  · intro h
    rw [h]
    exact List.indexOf_getElem hnd i hi

/-- Claim C6: for every fitted model (contributing its component count `k`),
standardized feature matrix and cluster assignment in which every component
has at least one member (at least one feature entry), the relabeling of
`sort_clusters` is monotonic — for output labels `i < j` the mean
standardized feature value of the points labelled `i` is at most that of the
points labelled `j` — and the output labels are dense integers `0..k-1`:
every output label is below `k` and every value below `k` occurs. -/
theorem sort_clusters_monotone_dense (k : ℕ) (X : List (List ℚ))
    (cl : List ℕ) (hcl : ∀ c ∈ cl, c < k)
    (hne : ∀ t, t < k → 0 < groupCount X cl t) :
    (∀ i j, i < j → j < k →
      groupMean X (sort_clusters k X cl) i
        ≤ groupMean X (sort_clusters k X cl) j)
    ∧ (∀ c ∈ sort_clusters k X cl, c < k)
    ∧ (∀ l, l < k → l ∈ sort_clusters k X cl) := by
  have hmlen : (cluster_means k X cl).length = k := by
    simp [cluster_means]
  set means := cluster_means k X cl with hmeans
  set idx := argsort means with hidxdef
  have hperm : idx.Perm (List.range k) := by
    rw [hidxdef]
    unfold argsort
    rw [hmlen]
    exact List.perm_insertionSort _ _
  have hlen : idx.length = k := by
    rw [hperm.length_eq, List.length_range]
  have hnd : idx.Nodup := hperm.nodup_iff.2 (List.nodup_range k)
  have hmemidx : ∀ c, c ∈ idx ↔ c < k := by
    intro c
    rw [hperm.mem_iff, List.mem_range]
  have hclm : ∀ c ∈ cl, c ∈ idx := fun c hc => (hmemidx c).2 (hcl c hc)
  have hsort : List.Sorted (fun a b : ℕ => means.getD a 0 ≤ means.getD b 0)
      idx := by
    haveI h1 : IsTotal ℕ (fun a b : ℕ => means.getD a 0 ≤ means.getD b 0) :=
      ⟨fun a b => le_total _ _⟩
    haveI h2 : IsTrans ℕ (fun a b : ℕ => means.getD a 0 ≤ means.getD b 0) :=
      ⟨fun a b c hab hbc => le_trans hab hbc⟩
    rw [hidxdef]
    unfold argsort
    exact List.sorted_insertionSort _ _
  have hmeansgetD : ∀ c, c < k → means.getD c 0 = groupMean X cl c := by
    intro c hc
    rw [hmeans]
    unfold cluster_means
    rw [List.getD_eq_getElem _ 0 (by simpa using hc), List.getElem_map,
      List.getElem_range]
  have hidxlt : ∀ i, i < k → idx.getD i 0 < k := by
    intro i hi
    have hm : idx.getD i 0 ∈ idx := by
      rw [List.getD_eq_getElem idx 0 (by omega)]
      exact List.getElem_mem _
    exact (hmemidx _).1 hm
  have hsc : sort_clusters k X cl = cl.map (fun c => idx.indexOf c) := by
    rw [hidxdef, hmeans]
    rfl
  have hgm : ∀ i, i < k →
      groupMean X (sort_clusters k X cl) i
        = groupMean X cl (idx.getD i 0) := by
    intro i hi
    rw [hsc]
    unfold groupMean groupSum groupCount
    rw [rowsOf_relabel X cl idx hnd hclm i (by omega)]
  refine ⟨?_, ?_, ?_⟩
  · intro i j hij hjk
    have hik : i < k := lt_trans hij hjk
    rw [hgm i hik, hgm j hjk]
    have hr : means.getD (idx.getD i 0) 0 ≤ means.getD (idx.getD j 0) 0 := by
      have hpw := List.pairwise_iff_getElem.1 hsort i j (by omega) (by omega)
        hij
      rw [List.getD_eq_getElem idx 0 (by omega : i < idx.length),
        List.getD_eq_getElem idx 0 (by omega : j < idx.length)]
      exact hpw
    rw [hmeansgetD _ (hidxlt i hik), hmeansgetD _ (hidxlt j hjk)] at hr
    exact hr
  · intro c hc
    rw [hsc] at hc
    obtain ⟨c0, hc0, rfl⟩ := List.mem_map.1 hc
    have hc0i : c0 ∈ idx := hclm c0 hc0
    have := List.indexOf_lt_length.2 hc0i
    omega
  · intro l hl
    have hidl : idx.getD l 0 < k := hidxlt l hl
    have hcnt := hne (idx.getD l 0) hidl
    have hrne : rowsOf X cl (idx.getD l 0) ≠ [] := by
      intro h0
      unfold groupCount at hcnt
      rw [h0] at hcnt
      simp at hcnt
    obtain ⟨row, hrow⟩ := List.exists_mem_of_ne_nil _ hrne
    unfold rowsOf at hrow
    obtain ⟨p, hpf, -⟩ := List.mem_map.1 hrow
    have hpz := List.mem_filter.1 hpf
    have hp2 : p.2 ∈ cl := (List.of_mem_zip hpz.1).2
    have hp2eq : p.2 = idx.getD l 0 := by
      have hd := hpz.2
      simpa using hd
    rw [hsc]
    apply List.mem_map.2
    refine ⟨p.2, hp2, ?_⟩
    rw [hp2eq, List.getD_eq_getElem idx 0 (by omega)]
    exact List.indexOf_getElem hnd l (by omega)

/-- Witness for C6 at a concrete model: two singleton clusters, point
`[0]` labelled 1 and point `[5]` labelled 0; after relabeling the mean of
output label 0 is at most that of output label 1. -/
theorem sort_clusters_monotone_dense_witness :
    groupMean [[0], [5]] (sort_clusters 2 [[0], [5]] [1, 0]) 0
      ≤ groupMean [[0], [5]] (sort_clusters 2 [[0], [5]] [1, 0]) 1 :=
  (sort_clusters_monotone_dense 2 [[0], [5]] [1, 0] (by decide)
    (by decide)).1 0 1 (by decide) (by decide)
